import Mathlib

/-!
Verification of the numeric core of the wellbore-schematic renderer
(`src/render.js`): survey validation (`get_survey`), minimum-curvature
trajectory integration (`min_curvature_algo`), scale-domain computation
(`get_scales`) and tangent estimation (`compute_slope`).

Modelling conventions:
* JavaScript numbers are modelled as real numbers.  Where the code's
  behaviour hinges on IEEE special values (the slope/theta computation),
  values are modelled by `WB.JSNum`: a real number, `+Infinity`,
  `-Infinity` or `NaN`, with the IEEE rules for the operations the code
  performs.  Signed zero is not modelled; a real zero behaves as `+0`.
* An out-of-bounds array read followed by a property access
  (`survey[j].tvd` for `j` outside the array) is a thrown `TypeError` in
  JavaScript; such computations are modelled in `Except Unit` with
  `.error ()` standing for the crash.
* `Array.prototype.sort` with the numeric comparator `a.md - b.md` is a
  stable ascending sort by `md`; it is modelled by `List.insertionSort`,
  which is stable.
-/

namespace WB

open Real

/-- A survey station as read from a data row: measured depth, inclination
(degrees) and azimuth (degrees).  The raw rows and the validated stations
have the same shape in the source (`{md, inc, az}` objects). -/
@[ext]
structure Station where
  md : ℝ
  inc : ℝ
  az : ℝ

/-- A processed station as built by `min_curvature_algo`: the input fields
plus accumulated east/west, north/south, true vertical depth and
cumulative horizontal distance (`{...survey[i], ew, ns, tvd, x}`). -/
@[ext]
structure PStation where
  md : ℝ
  inc : ℝ
  az : ℝ
  ew : ℝ
  ns : ℝ
  tvd : ℝ
  x : ℝ

/-! ### Survey validation (`get_survey`, render.js lines 123-148) -/

/-- Which validation check fired; the thrown message names inclination,
MD or azimuth respectively. -/
inductive VKind where
  | inc
  | md
  | az
deriving DecidableEq

/-- The data carried by a thrown validation error: the offending check,
the offending value interpolated into the message, and the 1-based row
index (`i+1` in the message strings). -/
structure VError where
  kind : VKind
  value : ℝ
  row : ℕ

/-- The per-row validation of `get_survey` (lines 130-136): inclination
outside [0, 180], negative MD, or azimuth outside [0, 360] throws; the
check order is inclination, then MD, then azimuth.  `i` is the 0-based
row index. -/
noncomputable def row_check (r : Station) (i : ℕ) : Option VError :=
  if r.inc < 0 ∨ r.inc > 180 then some ⟨.inc, r.inc, i + 1⟩
  else if r.md < 0 then some ⟨.md, r.md, i + 1⟩
  else if r.az < 0 ∨ r.az > 360 then some ⟨.az, r.az, i + 1⟩
  else none

/-- The first validation error thrown while mapping over the rows in
input order (the `throw` aborts `allrows.map` at the first bad row). -/
noncomputable def first_error : List Station → ℕ → Option VError
  | [], _ => none
  | r :: rest, i =>
    match row_check r i with
    | some e => some e
    | none => first_error rest (i + 1)

/-- Outcome of `get_survey`: a validated survey, a caught validation
failure (shown on the error overlay, function returns `undefined`), or an
uncaught crash (`survey[0].md` on an empty array throws a `TypeError`
outside the try/catch). -/
inductive GetSurveyResult where
  | ok (survey : List Station)
  | validationFailure (e : VError)
  | crash

/-- Embedding of `get_survey` (lines 123-148): validate every row,
sort ascending by `md` (stable), then prepend a synthetic surface
station `{md:0, inc:0, az:0}` when the shallowest station has
`md > 0.1`.  On an empty input the read `survey[0].md` is an uncaught
`TypeError`. -/
noncomputable def get_survey (allrows : List Station) : GetSurveyResult :=
  match first_error allrows 0 with
  | some e => .validationFailure e
  | none =>
    match List.insertionSort (fun a b => a.md ≤ b.md) allrows with
    | [] => .crash
    | s :: rest =>
      if s.md > 0.1 then .ok (⟨0, 0, 0⟩ :: s :: rest) else .ok (s :: rest)

/-! ### Minimum-curvature integration (`min_curvature_algo`, lines 150-172)

The loop body reads the angles of `survey[i-1]` and `survey[i]` and the
accumulated fields of `processed_survey[i-1]`.  Since every processed
station carries the `md`/`inc`/`az` of its input station unchanged (the
object spread), the step function below takes the previous processed
station and the current input station. -/

/-- Dogleg angle (line 158):
`beta = acos(sin I1 * sin I2 * (cos(A2-A1) - 1) + cos(I2-I1))` with
angles converted from degrees to radians. -/
noncomputable def beta (p : PStation) (c : Station) : ℝ :=
  let I1 := p.inc * π / 180
  let I2 := c.inc * π / 180
  let A1 := p.az * π / 180
  let A2 := c.az * π / 180
  Real.arccos (Real.sin I1 * Real.sin I2 * (Real.cos (A2 - A1) - 1) + Real.cos (I2 - I1))

/-- Ratio factor (lines 159-162): `rf = 1`, overwritten with
`2 * tan(beta/2) / beta` when `|beta| > 0.00001`. -/
noncomputable def rfac (p : PStation) (c : Station) : ℝ :=
  if |beta p c| > 0.00001 then 2 * Real.tan (beta p c / 2) / beta p c else 1

/-- Incremental true vertical depth (line 164). -/
noncomputable def dz (p : PStation) (c : Station) : ℝ :=
  0.5 * (c.md - p.md) * rfac p c *
    (Real.cos (p.inc * π / 180) + Real.cos (c.inc * π / 180))

/-- Incremental east/west displacement (line 165). -/
noncomputable def dx (p : PStation) (c : Station) : ℝ :=
  0.5 * (c.md - p.md) * rfac p c *
    (Real.sin (p.inc * π / 180) * Real.sin (p.az * π / 180) +
      Real.sin (c.inc * π / 180) * Real.sin (c.az * π / 180))

/-- Incremental north/south displacement (line 166). -/
noncomputable def dy (p : PStation) (c : Station) : ℝ :=
  0.5 * (c.md - p.md) * rfac p c *
    (Real.sin (p.inc * π / 180) * Real.cos (p.az * π / 180) +
      Real.sin (c.inc * π / 180) * Real.cos (c.az * π / 180))

/-- Incremental horizontal arc distance (line 167):
`ds = sqrt(dx*dx + dy*dy)`. -/
noncomputable def ds (p : PStation) (c : Station) : ℝ :=
  Real.sqrt (dx p c * dx p c + dy p c * dy p c)

/-- One iteration of the integration loop (lines 153-170): the pushed
station copies the current input station and adds each increment to the
previous accumulated field. -/
noncomputable def step (p : PStation) (c : Station) : PStation :=
  ⟨c.md, c.inc, c.az, p.ew + dx p c, p.ns + dy p c, p.tvd + dz p c, p.x + ds p c⟩

/-- The anchor pushed before the loop (line 152):
`{...survey[0], ew:0, ns:0, tvd:0, x:0}`. -/
noncomputable def anchor (s : Station) : PStation :=
  ⟨s.md, s.inc, s.az, 0, 0, 0, 0⟩

/-- The tail of the processed survey, given the previously pushed
station. -/
noncomputable def mca_from (prev : PStation) : List Station → List PStation
  | [] => []
  | c :: rest =>
    let p := step prev c
    p :: mca_from p rest

/-- Embedding of `min_curvature_algo` (lines 150-172).  The source would
crash on an empty survey (`survey[0]`); it is only called on validated,
hence nonempty, surveys, and the claims quantify over length ≥ 1. -/
noncomputable def min_curvature_algo : List Station → List PStation
  | [] => []
  | s :: rest => anchor s :: mca_from (anchor s) rest

/-- The final processed station after folding `step` over a station
list starting from `prev`. -/
noncomputable def runMCA (prev : PStation) : List Station → PStation
  | [] => prev
  | c :: rest => runMCA (step prev c) rest

/-! #### Structural lemmas about the integration -/

theorem runMCA_append (prev : PStation) (l1 l2 : List Station) :
    runMCA prev (l1 ++ l2) = runMCA (runMCA prev l1) l2 := by
  induction l1 generalizing prev with
  | nil => rfl
  | cons c rest ih => simp [runMCA, ih]

theorem mca_from_length (prev : PStation) (l : List Station) :
    (mca_from prev l).length = l.length := by
  induction l generalizing prev with
  | nil => rfl
  | cons c rest ih => simp [mca_from, ih]

theorem mca_length (l : List Station) :
    (min_curvature_algo l).length = l.length := by
  cases l with
  | nil => rfl
  | cons s rest => simp [min_curvature_algo, mca_from_length]

theorem cons_mca_from_getElem? (prev : PStation) (l : List Station) (i : ℕ)
    (h : i ≤ l.length) :
    (prev :: mca_from prev l)[i]? = some (runMCA prev (l.take i)) := by
  induction l generalizing prev i with
  | nil =>
    have hi : i = 0 := Nat.le_zero.mp h
    subst hi
    simp [mca_from, runMCA]
  | cons c rest ih =>
    cases i with
    | zero => simp [runMCA]
    | succ j =>
      have hj : j ≤ rest.length := by simpa using h
      calc (prev :: mca_from prev (c :: rest))[j + 1]?
          = (mca_from prev (c :: rest))[j]? := by simp
        _ = (step prev c :: mca_from (step prev c) rest)[j]? := by simp [mca_from]
        _ = some (runMCA (step prev c) (rest.take j)) := ih (step prev c) j hj
        _ = some (runMCA prev ((c :: rest).take (j + 1))) := by simp [runMCA]

theorem mca_getElem? (s0 : Station) (rest : List Station) (i : ℕ)
    (h : i ≤ rest.length) :
    (min_curvature_algo (s0 :: rest))[i]? = some (runMCA (anchor s0) (rest.take i)) := by
  simpa [min_curvature_algo] using cons_mca_from_getElem? (anchor s0) rest i h

theorem cons_mca_from_getLast? (prev : PStation) (l : List Station) :
    (prev :: mca_from prev l).getLast? = some (runMCA prev l) := by
  induction l generalizing prev with
  | nil => simp [mca_from, runMCA]
  | cons c rest ih =>
    calc (prev :: mca_from prev (c :: rest)).getLast?
        = (prev :: step prev c :: mca_from (step prev c) rest).getLast? := by
          simp [mca_from]
      _ = (step prev c :: mca_from (step prev c) rest).getLast? := by
          rw [List.getLast?_cons_cons]
      _ = some (runMCA (step prev c) rest) := ih (step prev c)
      _ = some (runMCA prev (c :: rest)) := by simp [runMCA]

theorem mca_getLast? (s0 : Station) (rest : List Station) :
    (min_curvature_algo (s0 :: rest)).getLast? = some (runMCA (anchor s0) rest) := by
  simpa [min_curvature_algo] using cons_mca_from_getLast? (anchor s0) rest

/-- A zero-length segment between a processed station and an identical
input station contributes nothing: `step` is the identity there. -/
theorem step_station_self (p : PStation) (c : Station)
    (hmd : p.md = c.md) (hinc : p.inc = c.inc) (haz : p.az = c.az) :
    step p c = p := by
  have hdx : dx p c = 0 := by rw [dx, hmd]; ring
  have hdy : dy p c = 0 := by rw [dy, hmd]; ring
  have hdz : dz p c = 0 := by rw [dz, hmd]; ring
  have hds : ds p c = 0 := by rw [ds, hdx, hdy]; simp
  ext <;> simp [step, hdx, hdy, hdz, hds, hmd.symm, hinc.symm, haz.symm]

/-- Consecutive processed stations are related by `step`, and the earlier
one carries the fields of the corresponding input station. -/
theorem mca_consecutive (survey : List Station) (i : ℕ) (q r : PStation)
    (hq : (min_curvature_algo survey)[i]? = some q)
    (hr : (min_curvature_algo survey)[i + 1]? = some r) :
    ∃ p c, survey[i]? = some p ∧ survey[i + 1]? = some c ∧
      q.md = p.md ∧ q.inc = p.inc ∧ q.az = p.az ∧ r = step q c := by
  cases survey with
  | nil => simp [min_curvature_algo] at hq
  | cons s0 rest =>
    have hlen : i + 1 < (min_curvature_algo (s0 :: rest)).length :=
      List.getElem?_eq_some_iff.mp hr |>.1
    have hlen' : i + 1 ≤ rest.length := by
      have := mca_length (s0 :: rest)
      simp [this] at hlen
      omega
    have hq' := mca_getElem? s0 rest i (by omega)
    have hr' := mca_getElem? s0 rest (i + 1) hlen'
    rw [hq] at hq'
    rw [hr] at hr'
    have hi : i < rest.length := by omega
    have hc : rest[i]? = some rest[i] := List.getElem?_eq_some_iff.mpr ⟨hi, rfl⟩
    have htake : rest.take (i + 1) = rest.take i ++ [rest[i]] := by
      rw [List.take_succ, hc]
      rfl
    have hqv : q = runMCA (anchor s0) (rest.take i) :=
      Option.some_injective _ hq'
    have hrv : r = runMCA (anchor s0) (rest.take (i + 1)) :=
      Option.some_injective _ hr'
    have hstep : r = step q (rest[i]) := by
      rw [hrv, htake, runMCA_append, ← hqv]
      rfl
    refine ⟨(s0 :: rest).get ⟨i, by simpa using Nat.lt_succ_of_lt hi⟩, rest[i],
      List.getElem?_eq_some_iff.mpr ⟨by simpa using Nat.lt_succ_of_lt hi, by simp⟩,
      by simp [hc], ?_, ?_, ?_, hstep⟩
  -- the station fields of `q` equal those of `survey[i]`
    all_goals
      cases i with
      | zero => simp [hqv, runMCA, anchor]
      | succ j =>
        have hj : j < rest.length := by omega
        have hcj : rest[j]? = some rest[j] := List.getElem?_eq_some_iff.mpr ⟨hj, rfl⟩
        have htakej : rest.take (j + 1) = rest.take j ++ [rest[j]] := by
          rw [List.take_succ, hcj]
          rfl
        rw [hqv, htakej, runMCA_append]
        simp [runMCA, step]

/-! ### Scale domains (`get_scales`, lines 174-189)

The claims address the `.domain([...])` arguments before `.nice(20)`
rounding; the d3 `nice`/`range` plumbing is external library behaviour
and not modelled. -/

/-- Embedding of `d3.extent` over a nonempty station list: the pair of
the minimum and maximum of the selected field.  (On an empty list d3
yields `[undefined, undefined]`; the pipeline only builds scales from
nonempty processed surveys, and the claims assume nonemptiness.) -/
noncomputable def extent (f : PStation → ℝ) : List PStation → ℝ × ℝ
  | [] => (0, 0)
  | p :: rest => ((rest.map f).foldl min (f p), (rest.map f).foldl max (f p))

/-- The pre-`nice` scale domains of `get_scales`: the x domain
(`[xmin - 0.01*xmax, 1.05*xmax]`, line 185) and the y domain
(`[ymin - 0.01*ymax, 1.05*ymax]`, line 178). -/
noncomputable def get_scales_domains (survey : List PStation) : (ℝ × ℝ) × (ℝ × ℝ) :=
  let yd := extent (fun p => p.tvd) survey
  let xd := extent (fun p => p.x) survey
  ((xd.1 - 0.01 * xd.2, 1.05 * xd.2), (yd.1 - 0.01 * yd.2, 1.05 * yd.2))

theorem foldl_min_spec (a : ℝ) (l : List ℝ) :
    l.foldl min a ∈ a :: l ∧ ∀ v ∈ a :: l, l.foldl min a ≤ v := by
  induction l generalizing a with
  | nil => simp
  | cons b rest ih =>
    obtain ⟨hmem, hle⟩ := ih (min a b)
    rw [List.mem_cons] at hmem
    constructor
    · rw [List.foldl_cons, List.mem_cons, List.mem_cons]
      rcases hmem with h | h
      · rw [h]
        rcases min_choice a b with hab | hab
        · left; exact hab
        · right; left; exact hab
      · right; right; exact h
    · intro v hv
      rw [List.mem_cons, List.mem_cons] at hv
      rw [List.foldl_cons]
      rcases hv with h | h | h
      · rw [h]
        exact le_trans (hle _ (by simp)) (min_le_left a b)
      · rw [h]
        exact le_trans (hle _ (by simp)) (min_le_right a b)
      · exact hle v (by simp [h])

theorem foldl_max_spec (a : ℝ) (l : List ℝ) :
    l.foldl max a ∈ a :: l ∧ ∀ v ∈ a :: l, v ≤ l.foldl max a := by
  induction l generalizing a with
  | nil => simp
  | cons b rest ih =>
    obtain ⟨hmem, hle⟩ := ih (max a b)
    rw [List.mem_cons] at hmem
    constructor
    · rw [List.foldl_cons, List.mem_cons, List.mem_cons]
      rcases hmem with h | h
      · rw [h]
        rcases max_choice a b with hab | hab
        · left; exact hab
        · right; left; exact hab
      · right; right; exact h
    · intro v hv
      rw [List.mem_cons, List.mem_cons] at hv
      rw [List.foldl_cons]
      rcases hv with h | h | h
      · rw [h]
        exact le_trans (le_max_left a b) (hle _ (by simp))
      · rw [h]
        exact le_trans (le_max_right a b) (hle _ (by simp))
      · exact hle v (by simp [h])

/-! ### JavaScript float special values

`compute_slope` divides by differences that can be zero and feeds the
results through `Math.atan`, so its behaviour depends on the IEEE
special values.  `JSNum` models a double as an exact real, `+Infinity`,
`-Infinity` or `NaN` (signed zero is not modelled; a real zero behaves
as IEEE `+0`, which is what subtraction of equal finite values
produces). -/

inductive JSNum where
  | num (val : ℝ)
  | posInf
  | negInf
  | nan

/-- IEEE addition on `JSNum`: infinities of opposite sign give `NaN`,
`NaN` propagates. -/
noncomputable def jadd : JSNum → JSNum → JSNum
  | .num a, .num b => .num (a + b)
  | .num _, .posInf => .posInf
  | .num _, .negInf => .negInf
  | .posInf, .num _ => .posInf
  | .negInf, .num _ => .negInf
  | .posInf, .posInf => .posInf
  | .negInf, .negInf => .negInf
  | _, _ => .nan

/-- IEEE multiplication on `JSNum`: zero times an infinity gives `NaN`,
`NaN` propagates. -/
noncomputable def jmul : JSNum → JSNum → JSNum
  | .num a, .num b => .num (a * b)
  | .num a, .posInf => if 0 < a then .posInf else if a < 0 then .negInf else .nan
  | .num a, .negInf => if 0 < a then .negInf else if a < 0 then .posInf else .nan
  | .posInf, .num b => if 0 < b then .posInf else if b < 0 then .negInf else .nan
  | .negInf, .num b => if 0 < b then .negInf else if b < 0 then .posInf else .nan
  | .posInf, .posInf => .posInf
  | .negInf, .negInf => .posInf
  | .posInf, .negInf => .negInf
  | .negInf, .posInf => .negInf
  | _, _ => .nan

/-- IEEE division on `JSNum`: a nonzero finite value divided by (+)zero
gives a signed infinity, `0/0` gives `NaN`, a finite value divided by an
infinity gives zero, infinity over infinity gives `NaN`, `NaN`
propagates. -/
noncomputable def jdiv : JSNum → JSNum → JSNum
  | .num a, .num b =>
    if b = 0 then (if 0 < a then .posInf else if a < 0 then .negInf else .nan)
    else .num (a / b)
  | .num _, .posInf => .num 0
  | .num _, .negInf => .num 0
  | .posInf, .num b => if 0 ≤ b then .posInf else .negInf
  | .negInf, .num b => if 0 ≤ b then .negInf else .posInf
  | _, _ => .nan

/-- `Math.atan` on `JSNum`: `atan(±Infinity) = ±π/2`, `NaN` propagates. -/
noncomputable def jatan : JSNum → JSNum
  | .num a => .num (Real.arctan a)
  | .posInf => .num (π / 2)
  | .negInf => .num (-(π / 2))
  | .nan => .nan

/-- The JavaScript comparison `theta >= 0`: false for `NaN` and
`-Infinity`, true for `+Infinity`. -/
noncomputable def jge0 : JSNum → Bool
  | .num a => decide (0 ≤ a)
  | .posInf => true
  | .negInf => false
  | .nan => false

/-- The JavaScript `isNaN` test (its argument is already a number
here). -/
def jIsNaN : JSNum → Bool
  | .nan => true
  | _ => false

/-! ### Tangent estimation (`compute_slope`, lines 191-208)

The scales are modelled as real-valued functions `fx fy : ℝ → ℝ` (for
a non-degenerate domain a d3 linear scale maps finite values to finite
values).  Reading `survey[j].tvd` for an out-of-bounds `j` is a
`TypeError`, modelled by `Except.error ()`. -/

/-- The slope `m` at loop index `i` (lines 195-202): forward difference
at `i = 0`, backward difference at `i = i1` (the last index), and the
half-and-half average of the two elsewhere.  The only reachable
out-of-bounds read is `survey[1]` when the survey has a single station
(the `i == 0` branch is tested first). -/
noncomputable def mslope (S : List PStation) (fx fy : ℝ → ℝ) (i1 i : ℕ) :
    Except Unit JSNum :=
  if i = 0 then
    match S[i]?, S[i + 1]? with
    | some a, some b =>
      .ok (jdiv (.num (fy a.tvd - fy b.tvd)) (.num (fx b.x - fx a.x)))
    | _, _ => .error ()
  else if i = i1 then
    match S[i - 1]?, S[i]? with
    | some a, some b =>
      .ok (jdiv (.num (fy a.tvd - fy b.tvd)) (.num (fx b.x - fx a.x)))
    | _, _ => .error ()
  else
    match S[i - 1]?, S[i]?, S[i + 1]? with
    | some a, some b, some c =>
      .ok (jadd
        (jmul (.num 0.5) (jdiv (.num (fy b.tvd - fy c.tvd)) (.num (fx c.x - fx b.x))))
        (jmul (.num 0.5) (jdiv (.num (fy a.tvd - fy b.tvd)) (.num (fx b.x - fx a.x)))))
    | _, _, _ => .error ()

/-- Lines 203-205: `theta = atan(-1/m)`, then
`theta = theta >= 0 ? theta : PI + theta`. -/
noncomputable def theta_of (m : JSNum) : JSNum :=
  let t := jatan (jdiv (.num (-1)) m)
  if jge0 t then t else jadd (.num π) t

/-- The per-station loop of `compute_slope`, carrying the theta stored
on the previous station (`survey[i-1].theta`).  When the computed theta
is `NaN` at index 0 there is no previous station and the read
`survey[-1].theta` is a `TypeError` (`prev = none`). -/
noncomputable def csLoop (S : List PStation) (fx fy : ℝ → ℝ) (i1 : ℕ) :
    List ℕ → Option JSNum → Except Unit (List JSNum)
  | [], _ => .ok []
  | i :: rest, prev =>
    match mslope S fx fy i1 i with
    | .error e => .error e
    | .ok m =>
      match (if jIsNaN (theta_of m) then
               match prev with
               | some pt => Except.ok pt
               | none => Except.error ()
             else Except.ok (theta_of m)) with
      | .error e => .error e
      | .ok stored =>
        match csLoop S fx fy i1 rest (some stored) with
        | .error e => .error e
        | .ok tail => .ok (stored :: tail)

/-- Embedding of `compute_slope` (lines 191-208): `i1 = survey.length - 1`,
loop `i = 0 .. survey.length - 1`; the result is the list of stored
`theta` values, one per station. -/
noncomputable def compute_slope (S : List PStation) (fx fy : ℝ → ℝ) :
    Except Unit (List JSNum) :=
  csLoop S fx fy (S.length - 1) (List.range S.length) none

/-! ### Claim-side increment formulas

These follow the wording of the claim about the minimum-curvature
formula set, stated on the two input stations of a segment, for
comparison with the source embedding above. -/

/-- The dogleg angle as the claim states it:
`beta = acos(sin(I1)*sin(I2)*(cos(A2-A1)-1) + cos(I2-I1))`, angles
converted from degrees to radians. -/
noncomputable def spec_beta (p c : Station) : ℝ :=
  Real.arccos (Real.sin (p.inc * π / 180) * Real.sin (c.inc * π / 180) *
      (Real.cos (c.az * π / 180 - p.az * π / 180) - 1) +
    Real.cos (c.inc * π / 180 - p.inc * π / 180))

/-- The ratio factor as the claim states it: `rf = 1` when
`|beta| ≤ 1e-5`, else `rf = 2*tan(beta/2)/beta`. -/
noncomputable def spec_rf (p c : Station) : ℝ :=
  if |spec_beta p c| ≤ 1e-5 then 1
  else 2 * Real.tan (spec_beta p c / 2) / spec_beta p c

/-- The claim's `dx = 0.5*dmd*rf*(sin(I1)*sin(A1)+sin(I2)*sin(A2))`. -/
noncomputable def spec_dx (p c : Station) : ℝ :=
  0.5 * (c.md - p.md) * spec_rf p c *
    (Real.sin (p.inc * π / 180) * Real.sin (p.az * π / 180) +
      Real.sin (c.inc * π / 180) * Real.sin (c.az * π / 180))

/-- The claim's `dy = 0.5*dmd*rf*(sin(I1)*cos(A1)+sin(I2)*cos(A2))`. -/
noncomputable def spec_dy (p c : Station) : ℝ :=
  0.5 * (c.md - p.md) * spec_rf p c *
    (Real.sin (p.inc * π / 180) * Real.cos (p.az * π / 180) +
      Real.sin (c.inc * π / 180) * Real.cos (c.az * π / 180))

/-- The claim's `dz = 0.5*dmd*rf*(cos(I1)+cos(I2))`. -/
noncomputable def spec_dz (p c : Station) : ℝ :=
  0.5 * (c.md - p.md) * spec_rf p c *
    (Real.cos (p.inc * π / 180) + Real.cos (c.inc * π / 180))

/-- The claim's `ds = sqrt(dx^2 + dy^2)`. -/
noncomputable def spec_ds (p c : Station) : ℝ :=
  Real.sqrt (spec_dx p c ^ 2 + spec_dy p c ^ 2)

theorem beta_eq_spec (q : PStation) (p c : Station)
    (hinc : q.inc = p.inc) (haz : q.az = p.az) : beta q c = spec_beta p c := by
  simp only [beta, spec_beta, hinc, haz]

theorem rfac_eq_spec (q : PStation) (p c : Station)
    (hinc : q.inc = p.inc) (haz : q.az = p.az) : rfac q c = spec_rf p c := by
  rw [rfac, spec_rf, beta_eq_spec q p c hinc haz]
  have he : (1e-5 : ℝ) = 0.00001 := by norm_num
  rw [he]
  rcases le_or_lt |spec_beta p c| 0.00001 with hle | hlt
  · rw [if_neg (not_lt.mpr hle), if_pos hle]
  · rw [if_pos hlt, if_neg (not_le.mpr hlt)]

theorem dx_eq_spec (q : PStation) (p c : Station)
    (hmd : q.md = p.md) (hinc : q.inc = p.inc) (haz : q.az = p.az) :
    dx q c = spec_dx p c := by
  rw [dx, spec_dx, rfac_eq_spec q p c hinc haz, hmd, hinc, haz]

theorem dy_eq_spec (q : PStation) (p c : Station)
    (hmd : q.md = p.md) (hinc : q.inc = p.inc) (haz : q.az = p.az) :
    dy q c = spec_dy p c := by
  rw [dy, spec_dy, rfac_eq_spec q p c hinc haz, hmd, hinc, haz]

theorem dz_eq_spec (q : PStation) (p c : Station)
    (hmd : q.md = p.md) (hinc : q.inc = p.inc) (haz : q.az = p.az) :
    dz q c = spec_dz p c := by
  rw [dz, spec_dz, rfac_eq_spec q p c hinc haz, hmd, hinc]

theorem ds_eq_spec (q : PStation) (p c : Station)
    (hmd : q.md = p.md) (hinc : q.inc = p.inc) (haz : q.az = p.az) :
    ds q c = spec_ds p c := by
  rw [ds, spec_ds, dx_eq_spec q p c hmd hinc haz, dy_eq_spec q p c hmd hinc haz]
  congr 1
  ring

/-- C1: for every validated station sequence of length ≥ 1, the
trajectory integration preserves the length, gives the anchor station
(index 0) all accumulated fields 0, and relates each consecutive output
pair by the minimum-curvature increments: `beta`, `rf` (1 when
`|beta| ≤ 1e-5`, else `2*tan(beta/2)/beta`), `dz`, `dx`, `dy`,
`ds = sqrt(dx^2+dy^2)`, each output field being the previous station's
accumulated field plus the increment. -/
theorem C1_min_curvature_recurrence (survey : List Station) (h : 1 ≤ survey.length) :
    (min_curvature_algo survey).length = survey.length ∧
    (∀ s0, survey[0]? = some s0 →
      (min_curvature_algo survey)[0]? = some ⟨s0.md, s0.inc, s0.az, 0, 0, 0, 0⟩) ∧
    (∀ i p c q r, survey[i]? = some p → survey[i + 1]? = some c →
      (min_curvature_algo survey)[i]? = some q →
      (min_curvature_algo survey)[i + 1]? = some r →
      r.ew = q.ew + spec_dx p c ∧ r.ns = q.ns + spec_dy p c ∧
        r.tvd = q.tvd + spec_dz p c ∧ r.x = q.x + spec_ds p c) := by
  refine ⟨mca_length survey, ?_, ?_⟩
  · intro s0 h0
    cases survey with
    | nil => simp at h0
    | cons a rest =>
      have ha : a = s0 := by simpa using h0
      subst ha
      rw [mca_getElem? a rest 0 (Nat.zero_le _)]
      simp [runMCA, anchor]
  · intro i p c q r hp hc hq hr
    obtain ⟨p', c', hp', hc', hmd, hinc, haz, hstep⟩ := mca_consecutive survey i q r hq hr
    have hpp : p' = p := by
      rw [hp] at hp'
      exact (Option.some_injective _ hp').symm
    have hcc : c' = c := by
      rw [hc] at hc'
      exact (Option.some_injective _ hc').symm
    have hmd' : q.md = p.md := by rw [hmd, hpp]
    have hinc' : q.inc = p.inc := by rw [hinc, hpp]
    have haz' : q.az = p.az := by rw [haz, hpp]
    have hstep' : r = step q c := by rw [hstep, hcc]
    rw [hstep']
    exact ⟨by simp only [step]; rw [dx_eq_spec q p c hmd' hinc' haz'],
      by simp only [step]; rw [dy_eq_spec q p c hmd' hinc' haz'],
      by simp only [step]; rw [dz_eq_spec q p c hmd' hinc' haz'],
      by simp only [step]; rw [ds_eq_spec q p c hmd' hinc' haz']⟩

/-- Witness for C1: the theorem applied to the concrete single-station
survey `[{md:0, inc:0, az:0}]`, whose anchor output has all accumulated
fields 0. -/
theorem C1_min_curvature_recurrence_witness :
    (min_curvature_algo [(⟨0, 0, 0⟩ : Station)])[0]? =
      some ⟨0, 0, 0, 0, 0, 0, 0⟩ :=
  (C1_min_curvature_recurrence [⟨0, 0, 0⟩] (by simp)).2.1 ⟨0, 0, 0⟩ (by simp)

/-! ### Monotonicity of the accumulated fields (C2) -/

theorem rfac_nonneg (q : PStation) (c : Station) : 0 ≤ rfac q c := by
  rw [rfac]
  split_ifs with h
  · have hb0 : 0 ≤ beta q c := Real.arccos_nonneg _
    have hbpi : beta q c ≤ π := Real.arccos_le_pi _
    have hbpos : 0 < beta q c := by
      rw [abs_of_nonneg hb0] at h
      linarith
    have htan : 0 ≤ Real.tan (beta q c / 2) := by
      rw [Real.tan_eq_sin_div_cos]
      apply div_nonneg
      · apply Real.sin_nonneg_of_nonneg_of_le_pi <;> linarith [Real.pi_pos]
      · apply Real.cos_nonneg_of_mem_Icc
        constructor <;> [linarith [Real.pi_pos]; linarith]
    apply div_nonneg _ hbpos.le
    linarith
  · exact zero_le_one

theorem ds_nonneg (q : PStation) (c : Station) : 0 ≤ ds q c := by
  rw [ds]
  exact Real.sqrt_nonneg _

theorem deg_cos_nonneg {v : ℝ} (h1 : 0 ≤ v) (h2 : v ≤ 90) :
    0 ≤ Real.cos (v * π / 180) := by
  apply Real.cos_nonneg_of_mem_Icc
  have hp := Real.pi_pos
  have hv0 : 0 ≤ v * π := mul_nonneg h1 hp.le
  have hv90 : v * π ≤ 90 * π := mul_le_mul_of_nonneg_right h2 hp.le
  constructor
  · linarith
  · linarith

theorem dz_nonneg (q : PStation) (c : Station) (hmd : q.md ≤ c.md)
    (h1 : 0 ≤ q.inc) (h2 : q.inc ≤ 90) (h3 : 0 ≤ c.inc) (h4 : c.inc ≤ 90) :
    0 ≤ dz q c := by
  rw [dz]
  have hc1 := deg_cos_nonneg h1 h2
  have hc2 := deg_cos_nonneg h3 h4
  have hrf := rfac_nonneg q c
  apply mul_nonneg (mul_nonneg (by linarith) hrf)
  linarith

/-- C2 (amended): for every valid sorted station sequence, the
cumulative horizontal distance `x` is monotonically non-decreasing and
both `x` and `tvd` are 0 at the anchor station; `tvd` is monotonically
non-decreasing provided every inclination lies in [0, 90] degrees
(inclinations up to 180 are valid, and above 90 degrees the vertical
increment is negative). -/
theorem C2_monotonicity_amended (survey : List Station) (h : 1 ≤ survey.length)
    (hsorted : List.Chain' (fun a b => a.md ≤ b.md) survey) :
    ((min_curvature_algo survey)[0]?.map (fun p => (p.x, p.tvd)) = some (0, 0)) ∧
    (∀ i q r, (min_curvature_algo survey)[i]? = some q →
      (min_curvature_algo survey)[i + 1]? = some r → q.x ≤ r.x) ∧
    ((∀ st ∈ survey, 0 ≤ st.inc ∧ st.inc ≤ 90) →
      ∀ i q r, (min_curvature_algo survey)[i]? = some q →
        (min_curvature_algo survey)[i + 1]? = some r → q.tvd ≤ r.tvd) := by
  refine ⟨?_, ?_, ?_⟩
  · cases survey with
    | nil => simp at h
    | cons a rest =>
      rw [mca_getElem? a rest 0 (Nat.zero_le _)]
      simp [runMCA, anchor]
  · intro i q r hq hr
    obtain ⟨p, c, hp, hc, _, _, _, hstep⟩ := mca_consecutive survey i q r hq hr
    have hds : 0 ≤ ds q c := ds_nonneg q c
    rw [hstep]
    simp only [step]
    linarith
  · intro hincs i q r hq hr
    obtain ⟨p, c, hp, hc, hmd, hinc, haz, hstep⟩ := mca_consecutive survey i q r hq hr
    obtain ⟨hlt, hce⟩ := List.getElem?_eq_some_iff.mp hc
    obtain ⟨hlt', hpe⟩ := List.getElem?_eq_some_iff.mp hp
    have hmdle : p.md ≤ c.md := by
      have hch := List.chain'_iff_get.mp hsorted i (by omega)
      simp only [List.get_eq_getElem] at hch
      rw [← hpe, ← hce]
      convert hch using 2
    have hpmem : p ∈ survey := by
      rw [← hpe]
      exact List.getElem_mem _
    have hcmem : c ∈ survey := by
      rw [← hce]
      exact List.getElem_mem _
    obtain ⟨hp1, hp2⟩ := hincs p hpmem
    obtain ⟨hc1, hc2⟩ := hincs c hcmem
    have hdz : 0 ≤ dz q c := by
      apply dz_nonneg q c (by rw [hmd]; exact hmdle)
        (by rw [hinc]; exact hp1) (by rw [hinc]; exact hp2) hc1 hc2
    rw [hstep]
    simp only [step]
    linarith

/-- C2 counterexample: the two-station survey
`[{md:0, inc:180, az:0}, {md:100, inc:180, az:0}]` passes validation
(inclination 180 is in range) and is sorted by measured depth, yet the
integrated true vertical depth strictly decreases from station 0 to
station 1, refuting the claimed monotonicity of `tvd` for every valid
sequence. -/
theorem C2_tvd_decreasing_cex :
    first_error [⟨0, 180, 0⟩, ⟨100, 180, 0⟩] 0 = none ∧
    List.Chain' (fun a b => a.md ≤ b.md) [(⟨0, 180, 0⟩ : Station), ⟨100, 180, 0⟩] ∧
    ∃ q r, (min_curvature_algo [⟨0, 180, 0⟩, ⟨100, 180, 0⟩])[0]? = some q ∧
      (min_curvature_algo [⟨0, 180, 0⟩, ⟨100, 180, 0⟩])[1]? = some r ∧
      r.tvd < q.tvd := by
  have hI : (180 : ℝ) * π / 180 = π := by ring
  have hbeta : beta (anchor ⟨0, 180, 0⟩) ⟨100, 180, 0⟩ = 0 := by
    simp only [beta, anchor]
    rw [hI]
    norm_num [Real.sin_pi, Real.arccos_one]
  have hrf : rfac (anchor ⟨0, 180, 0⟩) ⟨100, 180, 0⟩ = 1 := by
    rw [rfac, hbeta]
    norm_num
  have hdz : dz (anchor ⟨0, 180, 0⟩) ⟨100, 180, 0⟩ = -100 := by
    rw [dz, hrf]
    simp only [anchor]
    rw [hI, Real.cos_pi]
    norm_num
  refine ⟨by norm_num [first_error, row_check], by norm_num [List.chain'_cons], ?_⟩
  refine ⟨anchor ⟨0, 180, 0⟩, step (anchor ⟨0, 180, 0⟩) ⟨100, 180, 0⟩,
    by simp [min_curvature_algo, mca_from], by simp [min_curvature_algo, mca_from], ?_⟩
  simp only [step]
  rw [hdz]
  simp only [anchor]
  norm_num

/-- Witness for C2 (amended): the concrete valid sorted survey
`[{md:0, inc:0, az:0}, {md:100, inc:0, az:0}]` has anchor (x, tvd) = (0, 0)
and non-decreasing x and tvd between its two stations. -/
theorem C2_monotonicity_amended_witness :
    ∃ q r, (min_curvature_algo [(⟨0, 0, 0⟩ : Station), ⟨100, 0, 0⟩])[0]? = some q ∧
      (min_curvature_algo [(⟨0, 0, 0⟩ : Station), ⟨100, 0, 0⟩])[1]? = some r ∧
      q.x = 0 ∧ q.tvd = 0 ∧ q.x ≤ r.x ∧ q.tvd ≤ r.tvd := by
  have hq : (min_curvature_algo [(⟨0, 0, 0⟩ : Station), ⟨100, 0, 0⟩])[0]? =
      some (anchor ⟨0, 0, 0⟩) := by
    simp [min_curvature_algo, mca_from]
  have hr : (min_curvature_algo [(⟨0, 0, 0⟩ : Station), ⟨100, 0, 0⟩])[1]? =
      some (step (anchor ⟨0, 0, 0⟩) ⟨100, 0, 0⟩) := by
    simp [min_curvature_algo, mca_from]
  have hthm := C2_monotonicity_amended [(⟨0, 0, 0⟩ : Station), ⟨100, 0, 0⟩]
    (by simp) (by norm_num [List.chain'_cons])
  have hincs : ∀ st ∈ [(⟨0, 0, 0⟩ : Station), ⟨100, 0, 0⟩], 0 ≤ st.inc ∧ st.inc ≤ 90 := by
    intro st hst
    rw [List.mem_cons, List.mem_cons] at hst
    rcases hst with rfl | rfl | hst
    · norm_num
    · norm_num
    · simp at hst
  exact ⟨anchor ⟨0, 0, 0⟩, step (anchor ⟨0, 0, 0⟩) ⟨100, 0, 0⟩, hq, hr,
    rfl, rfl, hthm.2.1 0 _ _ hq hr, hthm.2.2 hincs 0 _ _ hq hr⟩

/-! ### Validation claims (C4, C5) -/

/-- C4 (amended): a row fails validation exactly when inclination < 0 or
> 180, or measured depth < 0, or azimuth < 0 or azimuth > 360 — azimuth
exactly 360 is accepted, since the source checks `az > 360` inclusively —
and the raised error captures the 1-based row index and the offending
value. -/
theorem C4_row_validation_amended (r : Station) (i : ℕ) :
    ((row_check r i).isSome ↔
      (r.inc < 0 ∨ r.inc > 180 ∨ r.md < 0 ∨ r.az < 0 ∨ r.az > 360)) ∧
    (∀ e, row_check r i = some e → e.row = i + 1 ∧
      (e.value = r.inc ∨ e.value = r.md ∨ e.value = r.az)) := by
  constructor
  · rw [row_check]
    split_ifs with h1 h2 h3
    · simp only [Option.isSome_some]
      constructor
      · intro _
        tauto
      · intro _
        trivial
    · simp only [Option.isSome_some]
      constructor
      · intro _
        tauto
      · intro _
        trivial
    · simp only [Option.isSome_some]
      constructor
      · intro _
        tauto
      · intro _
        trivial
    · simp only [Option.isSome_none]
      constructor
      · intro hfalse
        exact absurd hfalse (by simp)
      · intro hdisj
        tauto
  · intro e he
    rw [row_check] at he
    split_ifs at he with h1 h2 h3
    · obtain rfl := Option.some_injective _ he
      exact ⟨rfl, Or.inl rfl⟩
    · obtain rfl := Option.some_injective _ he
      exact ⟨rfl, Or.inr (Or.inl rfl)⟩
    · obtain rfl := Option.some_injective _ he
      exact ⟨rfl, Or.inr (Or.inr rfl)⟩

/-- C4 counterexample: the row `{md:0, inc:0, az:360}` passes the
source's validation — `az > 360` does not fire at exactly 360 — refuting
the claimed rejection of azimuth 360. -/
theorem C4_azimuth_360_accepted : row_check ⟨0, 0, 360⟩ 0 = none := by
  norm_num [row_check]

/-- Witness for C4 (amended): the row `{md:-1, inc:0, az:0}` (negative
measured depth) is rejected. -/
theorem C4_row_validation_amended_witness : (row_check ⟨-1, 0, 0⟩ 0).isSome :=
  (C4_row_validation_amended ⟨-1, 0, 0⟩ 0).1.mpr (by norm_num)

/-- C5: on the empty input the source performs no `EmptySurveyError`
rejection: validation passes vacuously and `survey[0].md` on the empty
array is an uncaught TypeError (`.crash`), not a descriptive failure
returned to the caller. -/
theorem C5_empty_survey_crash : get_survey [] = .crash := by
  rfl

/-- C3: the single-station survey `{md:0, inc:0, az:0}` passes
validation and integrates to one station with all derived fields 0, but
`compute_slope` then throws: with a single station the `i == 0` branch
reads `survey[1]` (undefined) and crashes, so no PlottedStation with a
defined theta is produced. -/
theorem C3_single_station_crash :
    get_survey [⟨0, 0, 0⟩] = .ok [⟨0, 0, 0⟩] ∧
    min_curvature_algo [⟨0, 0, 0⟩] = [⟨0, 0, 0, 0, 0, 0, 0⟩] ∧
    ∀ fx fy : ℝ → ℝ, compute_slope [⟨0, 0, 0, 0, 0, 0, 0⟩] fx fy = .error () := by
  refine ⟨?_, ?_, ?_⟩
  · norm_num [get_survey, first_error, row_check, List.insertionSort, List.orderedInsert]
  · simp [min_curvature_algo, mca_from, anchor]
  · intro fx fy
    simp [compute_slope, csLoop, mslope, List.range_succ]

/-! ### Scale domains (C9) -/

/-- C9: for every nonempty positioned survey, each scale's domain before
`nice` rounding is `[min(value) - 0.01*max(value), 1.05*max(value)]`,
and for data values spanning [0, 100] the computed bounds are -1
and 105. -/
theorem C9_scale_domains (survey : List PStation) (h : survey ≠ []) :
    (∃ xlo xhi ylo yhi,
      xlo ∈ survey.map (fun p => p.x) ∧ (∀ v ∈ survey.map (fun p => p.x), xlo ≤ v) ∧
      xhi ∈ survey.map (fun p => p.x) ∧ (∀ v ∈ survey.map (fun p => p.x), v ≤ xhi) ∧
      ylo ∈ survey.map (fun p => p.tvd) ∧ (∀ v ∈ survey.map (fun p => p.tvd), ylo ≤ v) ∧
      yhi ∈ survey.map (fun p => p.tvd) ∧ (∀ v ∈ survey.map (fun p => p.tvd), v ≤ yhi) ∧
      get_scales_domains survey =
        ((xlo - 0.01 * xhi, 1.05 * xhi), (ylo - 0.01 * yhi, 1.05 * yhi))) ∧
    get_scales_domains [⟨0, 0, 0, 0, 0, 0, 0⟩, ⟨100, 0, 0, 0, 0, 100, 100⟩] =
      ((-1, 105), (-1, 105)) := by
  constructor
  · cases survey with
    | nil => exact absurd rfl h
    | cons p rest =>
      obtain ⟨hxm, hxle⟩ := foldl_min_spec p.x (rest.map (fun q => q.x))
      obtain ⟨hxM, hxge⟩ := foldl_max_spec p.x (rest.map (fun q => q.x))
      obtain ⟨hym, hyle⟩ := foldl_min_spec p.tvd (rest.map (fun q => q.tvd))
      obtain ⟨hyM, hyge⟩ := foldl_max_spec p.tvd (rest.map (fun q => q.tvd))
      have hxm' : (rest.map (fun q => q.x)).foldl min p.x ∈
          (p :: rest).map (fun q => q.x) := by
        rw [List.map_cons]
        exact hxm
      have hxle' : ∀ v ∈ (p :: rest).map (fun q => q.x),
          (rest.map (fun q => q.x)).foldl min p.x ≤ v := by
        intro v hv
        rw [List.map_cons] at hv
        exact hxle v hv
      have hxM' : (rest.map (fun q => q.x)).foldl max p.x ∈
          (p :: rest).map (fun q => q.x) := by
        rw [List.map_cons]
        exact hxM
      have hxge' : ∀ v ∈ (p :: rest).map (fun q => q.x),
          v ≤ (rest.map (fun q => q.x)).foldl max p.x := by
        intro v hv
        rw [List.map_cons] at hv
        exact hxge v hv
      have hym' : (rest.map (fun q => q.tvd)).foldl min p.tvd ∈
          (p :: rest).map (fun q => q.tvd) := by
        rw [List.map_cons]
        exact hym
      have hyle' : ∀ v ∈ (p :: rest).map (fun q => q.tvd),
          (rest.map (fun q => q.tvd)).foldl min p.tvd ≤ v := by
        intro v hv
        rw [List.map_cons] at hv
        exact hyle v hv
      have hyM' : (rest.map (fun q => q.tvd)).foldl max p.tvd ∈
          (p :: rest).map (fun q => q.tvd) := by
        rw [List.map_cons]
        exact hyM
      have hyge' : ∀ v ∈ (p :: rest).map (fun q => q.tvd),
          v ≤ (rest.map (fun q => q.tvd)).foldl max p.tvd := by
        intro v hv
        rw [List.map_cons] at hv
        exact hyge v hv
      have heq : get_scales_domains (p :: rest) =
          (((rest.map (fun q => q.x)).foldl min p.x -
              0.01 * (rest.map (fun q => q.x)).foldl max p.x,
            1.05 * (rest.map (fun q => q.x)).foldl max p.x),
           ((rest.map (fun q => q.tvd)).foldl min p.tvd -
              0.01 * (rest.map (fun q => q.tvd)).foldl max p.tvd,
            1.05 * (rest.map (fun q => q.tvd)).foldl max p.tvd)) := rfl
      exact ⟨_, _, _, _, hxm', hxle', hxM', hxge', hym', hyle', hyM', hyge', heq⟩
  · norm_num [get_scales_domains, extent, min_def, max_def]

/-- Witness for C9: the theorem applied to a concrete two-station
positioned survey whose x and tvd values span [0, 100]. -/
theorem C9_scale_domains_witness :
    get_scales_domains [⟨0, 0, 0, 0, 0, 0, 0⟩, ⟨100, 0, 0, 0, 0, 100, 100⟩] =
      ((-1, 105), (-1, 105)) :=
  (C9_scale_domains [⟨0, 0, 0, 0, 0, 0, 0⟩, ⟨100, 0, 0, 0, 0, 100, 100⟩]
    (by simp)).2

/-! ### Duplicate-station invariance (C6) -/

/-- C6: inserting an identical duplicate station (same md/inc/az) at any
position leaves the final accumulated values (ew, ns, tvd, x) at the
last station unchanged — the zero-length segment contributes zero to
every increment.  The insertion position is `l1.length`, covering every
position of the survey `l1 ++ d :: l2`. -/
theorem C6_duplicate_insertion (l1 l2 : List Station) (d : Station) :
    ((min_curvature_algo (l1 ++ d :: d :: l2)).getLast?).map
        (fun p => (p.ew, p.ns, p.tvd, p.x)) =
    ((min_curvature_algo (l1 ++ d :: l2)).getLast?).map
        (fun p => (p.ew, p.ns, p.tvd, p.x)) := by
  cases l1 with
  | nil =>
    simp only [List.nil_append]
    rw [mca_getLast? d (d :: l2), mca_getLast? d l2]
    have hstep : step (anchor d) d = anchor d := step_station_self _ _ rfl rfl rfl
    rw [show runMCA (anchor d) (d :: l2) = runMCA (step (anchor d) d) l2 from rfl, hstep]
  | cons s0 l1' =>
    simp only [List.cons_append]
    rw [mca_getLast? s0 (l1' ++ d :: d :: l2), mca_getLast? s0 (l1' ++ d :: l2)]
    have h1 : runMCA (anchor s0) (l1' ++ d :: d :: l2) =
        runMCA (anchor s0) (l1' ++ d :: l2) := by
      rw [runMCA_append, runMCA_append]
      have h2 : runMCA (runMCA (anchor s0) l1') (d :: d :: l2) =
          runMCA (step (step (runMCA (anchor s0) l1') d) d) l2 := rfl
      rw [h2, step_station_self (step (runMCA (anchor s0) l1') d) d rfl rfl rfl]
      rfl
    rw [h1]

/-! ### Theta computation (C7, C8, C10) -/

theorem theta_of_num_zero : theta_of (.num 0) = .num (π / 2) := by
  have hdiv : jdiv (.num (-1)) (.num 0) = JSNum.negInf := by
    simp only [jdiv]
    norm_num
  have hge : ((0 : ℝ) ≤ -(π / 2)) ↔ False := by
    constructor
    · intro hh
      linarith [Real.pi_pos]
    · exact False.elim
  have hend : π + -(π / 2) = π / 2 := by ring
  simp only [theta_of, hdiv, jatan, jge0, decide_eq_true_eq, hge, if_false, jadd, hend]

/-- Whenever the slope `m` is not `NaN`, the computed theta is a real
number in `[0, π)`. -/
theorem theta_of_shape (m : JSNum) (h : m ≠ JSNum.nan) :
    ∃ t, theta_of m = .num t ∧ 0 ≤ t ∧ t < π := by
  have hpi := Real.pi_pos
  cases m with
  | num a =>
    by_cases ha : a = 0
    · subst ha
      exact ⟨π / 2, theta_of_num_zero, by linarith, by linarith⟩
    · have hdiv : jdiv (.num (-1)) (.num a) = .num ((-1) / a) := by
        simp only [jdiv]
        rw [if_neg ha]
      have hlt := Real.arctan_lt_pi_div_two ((-1) / a)
      have hgt := Real.neg_pi_div_two_lt_arctan ((-1) / a)
      simp only [theta_of, hdiv, jatan, jge0, decide_eq_true_eq]
      by_cases h0 : (0 : ℝ) ≤ Real.arctan ((-1) / a)
      · rw [if_pos h0]
        exact ⟨Real.arctan ((-1) / a), rfl, h0, by linarith⟩
      · rw [if_neg h0]
        push_neg at h0
        refine ⟨π + Real.arctan ((-1) / a), ?_, by linarith, by linarith⟩
        simp only [jadd]
  | posInf =>
    have hdiv : jdiv (.num (-1)) JSNum.posInf = .num 0 := rfl
    simp only [theta_of, hdiv, jatan, Real.arctan_zero, jge0, decide_eq_true_eq]
    rw [if_pos le_rfl]
    exact ⟨0, rfl, le_rfl, hpi⟩
  | negInf =>
    have hdiv : jdiv (.num (-1)) JSNum.negInf = .num 0 := rfl
    simp only [theta_of, hdiv, jatan, Real.arctan_zero, jge0, decide_eq_true_eq]
    rw [if_pos le_rfl]
    exact ⟨0, rfl, le_rfl, hpi⟩
  | nan => exact absurd rfl h

/-- C10: when the mapped slope is exactly 0, the theta computation is
still well-defined and yields exactly π/2 — `-1/0` is `-Infinity`,
`atan(-Infinity)` is `-π/2`, and the normalization adds π — so the
NaN-fallback test fails for m = 0; it succeeds exactly when m itself is
`NaN`. -/
theorem C10_m_zero_theta :
    (theta_of (.num 0) = .num (π / 2) ∧ jIsNaN (theta_of (.num 0)) = false) ∧
    (∀ m, jIsNaN (theta_of m) = true ↔ m = .nan) ∧
    jdiv (.num (-1)) (.num 0) = .negInf ∧ jatan .negInf = .num (-(π / 2)) := by
  have hzero := theta_of_num_zero
  refine ⟨⟨hzero, by rw [hzero]; rfl⟩, ?_, by simp only [jdiv]; norm_num, rfl⟩
  intro m
  constructor
  · intro hm
    by_contra hne
    obtain ⟨t, ht, _, _⟩ := theta_of_shape m hne
    rw [ht] at hm
    simp [jIsNaN] at hm
  · intro hm
    subst hm
    rfl

/-- Witness for C10: the fallback test fires on a `NaN` slope. -/
theorem C10_m_zero_theta_witness : jIsNaN (theta_of JSNum.nan) = true :=
  (C10_m_zero_theta.2.1 JSNum.nan).mpr rfl

/-- Every stored theta produced by a successful run of the loop is a
real number in `[0, π)`, provided the carried previous theta (if any)
is. -/
theorem csLoop_shape (S : List PStation) (fx fy : ℝ → ℝ) (i1 : ℕ)
    (idxs : List ℕ) (prev : Option JSNum) (out : List JSNum)
    (hprev : ∀ p, prev = some p → ∃ t, p = .num t ∧ 0 ≤ t ∧ t < π)
    (hok : csLoop S fx fy i1 idxs prev = .ok out) :
    ∀ u ∈ out, ∃ t, u = .num t ∧ 0 ≤ t ∧ t < π := by
  induction idxs generalizing prev out with
  | nil =>
    simp only [csLoop] at hok
    obtain rfl := Except.ok.inj hok
    simp
  | cons i rest ih =>
    simp only [csLoop] at hok
    cases hm : mslope S fx fy i1 i with
    | error e =>
      rw [hm] at hok
      dsimp only at hok
      cases hok
    | ok m =>
      rw [hm] at hok
      dsimp only at hok
      by_cases hnan : jIsNaN (theta_of m) = true
      · rw [if_pos hnan] at hok
        cases prev with
        | none =>
          dsimp only at hok
          cases hok
        | some pt =>
          dsimp only at hok
          cases hrec : csLoop S fx fy i1 rest (some pt) with
          | error e =>
            rw [hrec] at hok
            dsimp only at hok
            cases hok
          | ok tail =>
            rw [hrec] at hok
            dsimp only at hok
            obtain rfl := Except.ok.inj hok
            intro u hu
            rcases List.mem_cons.mp hu with rfl | hu
            · exact hprev u rfl
            · exact ih (some pt) tail hprev hrec u hu
      · rw [if_neg hnan] at hok
        dsimp only at hok
        have hmne : m ≠ .nan := by
          intro hcon
          subst hcon
          exact hnan rfl
        obtain ⟨t, ht, ht0, htpi⟩ := theta_of_shape m hmne
        cases hrec : csLoop S fx fy i1 rest (some (theta_of m)) with
        | error e =>
          rw [hrec] at hok
          dsimp only at hok
          cases hok
        | ok tail =>
          rw [hrec] at hok
          dsimp only at hok
          obtain rfl := Except.ok.inj hok
          intro u hu
          rcases List.mem_cons.mp hu with rfl | hu
          · exact ⟨t, ht, ht0, htpi⟩
          · refine ih (some (theta_of m)) tail ?_ hrec u hu
            intro p hp
            obtain rfl := (Option.some_injective _ hp).symm
            exact ⟨t, ht, ht0, htpi⟩

/-- When the computed theta at the index stored at position `k+1` is
`NaN`, the loop stores the previous station's theta there. -/
theorem csLoop_fallback (S : List PStation) (fx fy : ℝ → ℝ) (i1 : ℕ)
    (idxs : List ℕ) (prev : Option JSNum) (out : List JSNum)
    (hok : csLoop S fx fy i1 idxs prev = .ok out) :
    ∀ k j, idxs[k + 1]? = some j →
      ∀ m, mslope S fx fy i1 j = .ok m → jIsNaN (theta_of m) = true →
        out[k + 1]? = out[k]? := by
  induction idxs generalizing prev out with
  | nil =>
    intro k j hj
    simp at hj
  | cons i rest ih =>
    intro k j hj m hm hnan
    simp only [csLoop] at hok
    cases hmi : mslope S fx fy i1 i with
    | error e =>
      rw [hmi] at hok
      dsimp only at hok
      cases hok
    | ok mi =>
      rw [hmi] at hok
      dsimp only at hok
      have hnext : ∀ stored tail, csLoop S fx fy i1 rest (some stored) = .ok tail →
          (stored :: tail)[k + 1]? = (stored :: tail)[k]? := by
        intro stored tail hrec
        cases k with
        | zero =>
          have hj' : rest[0]? = some j := by simpa using hj
          cases rest with
          | nil => simp at hj'
          | cons j' rest' =>
            have hjj : j' = j := by simpa using hj'
            subst hjj
            simp only [csLoop] at hrec
            rw [hm] at hrec
            dsimp only at hrec
            rw [if_pos hnan] at hrec
            dsimp only at hrec
            cases hrec2 : csLoop S fx fy i1 rest' (some stored) with
            | error e =>
              rw [hrec2] at hrec
              dsimp only at hrec
              cases hrec
            | ok tail2 =>
              rw [hrec2] at hrec
              dsimp only at hrec
              obtain rfl := Except.ok.inj hrec
              simp
        | succ k' =>
          have hj' : rest[k' + 1]? = some j := by simpa using hj
          have := ih (some stored) tail hrec k' j hj' m hm hnan
          simpa using this
      by_cases hnani : jIsNaN (theta_of mi) = true
      · rw [if_pos hnani] at hok
        cases prev with
        | none =>
          dsimp only at hok
          cases hok
        | some pt =>
          dsimp only at hok
          cases hrec : csLoop S fx fy i1 rest (some pt) with
          | error e =>
            rw [hrec] at hok
            dsimp only at hok
            cases hok
          | ok tail =>
            rw [hrec] at hok
            dsimp only at hok
            obtain rfl := Except.ok.inj hok
            exact hnext pt tail hrec
      · rw [if_neg hnani] at hok
        dsimp only at hok
        cases hrec : csLoop S fx fy i1 rest (some (theta_of mi)) with
        | error e =>
          rw [hrec] at hok
          dsimp only at hok
          cases hok
        | ok tail =>
          rw [hrec] at hok
          dsimp only at hok
          obtain rfl := Except.ok.inj hok
          exact hnext (theta_of mi) tail hrec

/-- C7: for every non-degenerate run of the tangent estimator (a run
that completes without crashing, on a survey of length ≥ 2), every
stored theta is a real number in the half-open interval `[0, π)`. -/
theorem C7_theta_range (S : List PStation) (fx fy : ℝ → ℝ) (thetas : List JSNum)
    (_hlen : 2 ≤ S.length) (hok : compute_slope S fx fy = .ok thetas) :
    ∀ i, i < thetas.length →
      ∃ t, thetas[i]? = some (.num t) ∧ 0 ≤ t ∧ t < π := by
  intro i hi
  have hsh := csLoop_shape S fx fy (S.length - 1) (List.range S.length) none thetas
    (by intro p hp; cases hp) hok
  obtain ⟨t, ht, ht0, htpi⟩ := hsh (thetas.get ⟨i, hi⟩) (List.getElem_mem hi)
  refine ⟨t, ?_, ht0, htpi⟩
  rw [List.getElem?_eq_some_iff]
  exact ⟨hi, by simpa using ht⟩

/-- C8 (amended): on every run of the tangent estimator that completes,
no stored theta is `NaN`, and every station of index i ≥ 1 whose
computed theta is `NaN` is assigned the previous station's stored theta.
(At station 0 a `NaN` theta instead crashes — see the counterexample —
so the claim holds only for i ≥ 1.) -/
theorem C8_nan_fallback_amended (S : List PStation) (fx fy : ℝ → ℝ)
    (thetas : List JSNum) (hok : compute_slope S fx fy = .ok thetas) :
    (∀ u ∈ thetas, u ≠ .nan) ∧
    (∀ i, 0 < i → i < S.length →
      ∀ m, mslope S fx fy (S.length - 1) i = .ok m →
        jIsNaN (theta_of m) = true → thetas[i]? = thetas[i - 1]?) := by
  constructor
  · intro u hu
    obtain ⟨t, ht, _, _⟩ := csLoop_shape S fx fy (S.length - 1) (List.range S.length)
      none thetas (by intro p hp; cases hp) hok u hu
    rw [ht]
    intro hcon
    cases hcon
  · intro i hi0 hilen m hm hnan
    obtain ⟨k, rfl⟩ : ∃ k, i = k + 1 := ⟨i - 1, by omega⟩
    have hj : (List.range S.length)[k + 1]? = some (k + 1) := by
      rw [List.getElem?_eq_some_iff]
      exact ⟨by simpa using hilen, by simp⟩
    have := csLoop_fallback S fx fy (S.length - 1) (List.range S.length) none thetas
      hok k (k + 1) hj m hm hnan
    simpa using this

/-- Witness for C7: a concrete two-station run (distinct mapped points)
whose stored thetas all equal π/4 ∈ [0, π). -/
theorem C7_theta_range_witness :
    ∃ t, ([JSNum.num (π / 4), JSNum.num (π / 4)])[0]? = some (JSNum.num t) ∧
      0 ≤ t ∧ t < π := by
  have h04 : (0 : ℝ) ≤ π / 4 := by linarith [Real.pi_pos]
  have heval : compute_slope [⟨0, 0, 0, 0, 0, 0, 0⟩, ⟨0, 0, 0, 0, 0, 1, 1⟩]
      (fun v => v) (fun v => v) = .ok [.num (π / 4), .num (π / 4)] := by
    norm_num [compute_slope, csLoop, mslope, theta_of, jdiv, jatan, jadd, jmul,
      jge0, jIsNaN, List.range_succ, Real.arctan_one, h04]
  exact C7_theta_range _ _ _ _ (by norm_num) heval 0 (by norm_num)

/-- C8 counterexample: on a two-station survey whose stations map to the
same point, the slope at station 0 is `0/0 = NaN` and the computed theta
is `NaN`; the fallback then reads `survey[-1].theta` — station 0 has no
previous station — and the run crashes with a TypeError instead of
assigning a previous theta. -/
theorem C8_station0_nan_crash :
    compute_slope [⟨0, 0, 0, 0, 0, 0, 0⟩, ⟨0, 0, 0, 0, 0, 0, 0⟩]
      (fun v => v) (fun v => v) = .error () := by
  norm_num [compute_slope, csLoop, mslope, theta_of, jdiv, jatan, jadd, jmul,
    jge0, jIsNaN, List.range_succ]

/-- Witness for C8 (amended): a three-station run where the computed
theta at the last station is `NaN` (coincident mapped points) and the
stored theta is carried over from the previous station; no stored theta
is `NaN`. -/
theorem C8_nan_fallback_amended_witness :
    ∃ thetas, compute_slope [⟨0, 0, 0, 0, 0, 0, 0⟩, ⟨0, 0, 0, 0, 0, 1, 1⟩, ⟨0, 0, 0, 0, 0, 1, 1⟩]
        (fun v => v) (fun v => v) = .ok thetas ∧
      thetas[2]? = thetas[1]? ∧ ∀ u ∈ thetas, u ≠ .nan := by
  have h04 : (0 : ℝ) ≤ π / 4 := by linarith [Real.pi_pos]
  have heval : compute_slope [⟨0, 0, 0, 0, 0, 0, 0⟩, ⟨0, 0, 0, 0, 0, 1, 1⟩, ⟨0, 0, 0, 0, 0, 1, 1⟩]
      (fun v => v) (fun v => v) = .ok [.num (π / 4), .num (π / 4), .num (π / 4)] := by
    norm_num [compute_slope, csLoop, mslope, theta_of, jdiv, jatan, jadd, jmul,
      jge0, jIsNaN, List.range_succ, Real.arctan_one, h04]
  have hm : mslope [(⟨0, 0, 0, 0, 0, 0, 0⟩ : PStation), ⟨0, 0, 0, 0, 0, 1, 1⟩, ⟨0, 0, 0, 0, 0, 1, 1⟩]
      (fun v => v) (fun v => v)
      ([(⟨0, 0, 0, 0, 0, 0, 0⟩ : PStation), ⟨0, 0, 0, 0, 0, 1, 1⟩,
        ⟨0, 0, 0, 0, 0, 1, 1⟩].length - 1) 2 = .ok .nan := by
    norm_num [mslope, jdiv]
  have hthm := C8_nan_fallback_amended _ _ _ _ heval
  refine ⟨_, heval, ?_, hthm.1⟩
  have hfb := hthm.2 2 (by norm_num) (by norm_num) .nan hm rfl
  exact hfb

end WB
